import Mathlib

/-!
Verification of the linkfinder_folder path-extraction and URL-rebuilding core
(`linkfinder.py`). Strings are modelled as `List Char`; every Python string
operation used by the program is embedded as an executable Lean function.
-/

set_option maxRecDepth 10000

namespace LinkFinder

/-- Python `s.rstrip('/')`: remove all trailing `'/'` characters. -/
def rstripSlash : List Char → List Char
  | [] => []
  | c :: rest =>
    match rstripSlash rest with
    | [] => if c == '/' then [] else [c]
    | d :: r => c :: d :: r

/-- Python `s.endswith('/')`. -/
def endsSlash : List Char → Bool
  | [] => false
  | [c] => c == '/'
  | _ :: c :: rest => endsSlash (c :: rest)

/-- Python `s.rfind('/')`: index of the last `'/'`, `none` when the Python
call would return `-1`. -/
def rfindSlash : List Char → Option Nat
  | [] => none
  | c :: rest =>
    match rfindSlash rest with
    | some i => some (i + 1)
    | none => if c == '/' then some 0 else none

/-- The join step of `rebuild_paths` (linkfinder.py lines 116-119): append the
cleaned candidate with exactly one `'/'` separator. -/
def joinURL (current clean : List Char) : List Char :=
  if endsSlash current then current ++ clean else current ++ '/' :: clean

/-- The `./` / `.` prefix stripping at the top of `rebuild_paths`
(linkfinder.py lines 105-109). -/
def cleanRel (p : List Char) : List Char :=
  if ['.', '/'].isPrefixOf p then p.drop 2
  else if ['.'].isPrefixOf p then p.drop 1
  else p

/-- One step of the directory climb of `rebuild_paths` (linkfinder.py lines
123-142), run after each emission: `none` means the Python loop breaks, and
`some nxt` is the directory used by the next iteration. -/
def nextDir (base current : List Char) : Option (List Char) :=
  if rstripSlash current = rstripSlash base then none
  else
    match rfindSlash (rstripSlash current) with
    | none => none
    | some i =>
      if (rstripSlash ((rstripSlash current).take (i + 1))).length <
          (rstripSlash base).length then none
      else some ((rstripSlash current).take (i + 1))

/-- The emission loop of `rebuild_paths` (linkfinder.py lines 112-144),
fuel-indexed; fuel `current.length + 1` is always enough
(`rebuildLoopF_congr`), so `rebuild_paths` below is the Python loop. -/
def rebuildLoopF (base clean : List Char) : Nat → List Char → List (List Char)
  | 0, _ => []
  | fuel + 1, current =>
    joinURL current clean ::
      (match nextDir base current with
       | none => []
       | some nxt => rebuildLoopF base clean fuel nxt)

/-- Python `rebuild_paths(base_url, js_dir_url, relative_path)`
(linkfinder.py lines 100-144). -/
def rebuild_paths (base dir rel : List Char) : List (List Char) :=
  rebuildLoopF base (cleanRel rel) (dir.length + 1) dir

/-- Python's `$` anchor in `re.match(r'^A$', s)`: the pattern matches when
`A` consumes the whole string, or the whole string short of one trailing
newline (`$` also matches just before a newline that ends the string).
`test` is the end-to-end match of `A`. -/
def withDollar (test : List Char → Bool) (s : List Char) : Bool :=
  test s ||
    (match s.reverse with
     | '\n' :: r => test r.reverse
     | _ => false)

/-- End-to-end core of the MIME pattern `[a-z]+/[a-z0-9\-\+\.]+` under
`re.IGNORECASE`.  The letter run before the `'/'` is maximal, so the
anchored pattern matches exactly when the part before the single `'/'` is a
nonempty letter run and the nonempty rest stays inside the second class
(which excludes `'/'`). -/
def is_mime_typeCore (p : List Char) : Bool :=
  match p.dropWhile Char.isAlpha with
  | '/' :: b =>
    !(p.takeWhile Char.isAlpha).isEmpty && !b.isEmpty &&
      b.all (fun c => c.isAlpha || c.isDigit || c == '-' || c == '+' || c == '.')
  | _ => false

/-- Python `is_mime_type` (linkfinder.py lines 147-150): truthiness of
`re.match(r'^[a-z]+/[a-z0-9\-\+\.]+$', text, re.IGNORECASE)`, including the
`$` trailing-newline acceptance. -/
def is_mime_type (p : List Char) : Bool :=
  withDollar is_mime_typeCore p

/-- End-to-end core of the skip pattern `^[a-zA-Z]$`. -/
def isSingleLetterCore (p : List Char) : Bool :=
  match p with
  | [c] => c.isAlpha
  | _ => false

/-- Skip pattern `^[a-zA-Z]$` (linkfinder.py line 177), with Python's `$`
trailing-newline acceptance. -/
def isSingleLetter (p : List Char) : Bool :=
  withDollar isSingleLetterCore p

/-- End-to-end core of the skip pattern `^[0-9]+$`. -/
def isDigitsOnlyCore (p : List Char) : Bool :=
  !p.isEmpty && p.all Char.isDigit

/-- Skip pattern `^[0-9]+$` (linkfinder.py line 178), with Python's `$`
trailing-newline acceptance. -/
def isDigitsOnly (p : List Char) : Bool :=
  withDollar isDigitsOnlyCore p

/-- Word character, as in the `\w` of the short-token skip pattern,
modelled on its ASCII fragment `[a-zA-Z0-9_]` (Python's `\w` additionally
accepts non-ASCII Unicode word characters; the theorems below never depend
on the character class). -/
def isWordChar (c : Char) : Bool := c.isAlpha || c.isDigit || c == '_'

/-- End-to-end core of the skip pattern `^\w+$`. -/
def isWordTokenCore (p : List Char) : Bool :=
  !p.isEmpty && p.all isWordChar

/-- Skip pattern `^\w+$` with Python's `$` trailing-newline acceptance,
applied only when the text is shorter than 3 characters (linkfinder.py
line 179; the length test is on the original text). -/
def isShortWord (p : List Char) : Bool :=
  decide (p.length < 3) && withDollar isWordTokenCore p

/-- The per-match acceptance test of `extract_paths` (linkfinder.py lines
169-188): nonempty (`if path:`), not a MIME type, and none of the skip
patterns. -/
def keepPath (p : List Char) : Bool :=
  !p.isEmpty && !is_mime_type p && !isSingleLetter p && !isDigitsOnly p &&
    !isShortWord p

/-- The duplicate-removal loop of `extract_paths` (linkfinder.py lines
192-197); `seen` models the Python set as the list of values added so far. -/
def dedupFirst (seen : List (List Char)) : List (List Char) → List (List Char)
  | [] => []
  | p :: rest =>
    if p ∈ seen then dedupFirst seen rest
    else p :: dedupFirst (p :: seen) rest

/-- The match-processing part of `extract_paths` (linkfinder.py lines
166-199), applied to the ordered list of raw group-1 matches: rejection
filtering followed by first-occurrence deduplication. -/
def filter_matches (ms : List (List Char)) : List (List Char) :=
  dedupFirst [] (ms.filter keepPath)

/-- The cheap normalization for oversized inputs (linkfinder.py line 158):
`content.replace(";", ";\n").replace(",", ",\n")`, one character at a time. -/
def insertNl (c : Char) : List Char :=
  if c == ';' then [';', '\n'] else if c == ',' then [',', '\n'] else [c]

/-- The default grammar `PATH_REGEX` (linkfinder.py lines 27-52) after
`re.VERBOSE` normalization (comments and insignificant whitespace removed;
the space inside the second alternative's character class is significant and
kept; the source literal is a raw string, so its backslashes are literal).
Braces and single quotes are written with `\x` escapes. -/
def PATH_REGEX : List Char :=
  ("(?:\"|\x27)((?:[a-zA-Z]\x7b1,10\x7d://|//)[^\"\x27/]\x7b1,\x7d\\.[a-zA-Z]\x7b2,\x7d[^\"\x27]\x7b0,\x7d|(?:/|\\.\\./|\\./)[^\"\x27><,;| *()(%%$^/\\\\\\[\\]][^\"\x27><,;|()]\x7b1,\x7d|[a-zA-Z0-9_\\-/]\x7b1,\x7d/[a-zA-Z0-9_\\-/.]\x7b1,\x7d\\.(?:[a-zA-Z]\x7b1,4\x7d|action)(?:[\\?|#][^\"|\x27]\x7b0,\x7d|)|[a-zA-Z0-9_\\-/]\x7b1,\x7d/[a-zA-Z0-9_\\-/]\x7b3,\x7d(?:[\\?|#][^\"|\x27]\x7b0,\x7d|)|[a-zA-Z0-9_\\-]\x7b1,\x7d\\.(?:php|asp|aspx|jsp|json|action|html|js|txt|xml)(?:[\\?|#][^\"|\x27]\x7b0,\x7d|))(?:\"|\x27)").toList

/-- The pattern selection `custom_regex if custom_regex else PATH_REGEX`
(linkfinder.py line 165): Python truthiness, so both `None` and the empty
string fall back to the default grammar. -/
def chosenPattern (customRe : Option (List Char)) : List Char :=
  match customRe with
  | some s => if s.isEmpty then PATH_REGEX else s
  | none => PATH_REGEX

/-- Python `extract_paths(content, custom_regex)` (linkfinder.py lines
153-199).  The regex engine and the beautifier are external libraries, so
they enter as parameters: `compileRe` is `re.compile` (`Except` is the raised
`re.error`), `findAll` returns the ordered group-1 texts of `finditer`, and
`beautifyF` is `jsbeautifier.beautify` with `none` for the exception
swallowed by the bare `except` (fall back to the original content).  The
`re.compile` call sits outside any handler, so its failure is returned as
`Except.error`, never swallowed. -/
def extract_paths {ε π : Type} (compileRe : List Char → Except ε π)
    (findAll : π → List Char → List (List Char))
    (beautifyF : List Char → Option (List Char))
    (customRe : Option (List Char)) (content : List Char) :
    Except ε (List (List Char)) :=
  let content1 :=
    if 1000000 < content.length then content.flatMap insertNl
    else (beautifyF content).getD content
  match compileRe (chosenPattern customRe) with
  | Except.error e => Except.error e
  | Except.ok r => Except.ok (filter_matches (findAll r content1))

/-- Characters of the class `[a-zA-Z0-9.-]`. -/
def isDomainChar (c : Char) : Bool :=
  c.isAlpha || c.isDigit || c == '.' || c == '-'

/-- End-to-end core of the domain pattern `[a-zA-Z0-9.-]+\.[a-zA-Z]{2,}`:
the string must split as `pre ++ '.' ++ tld` with `pre` nonempty over the
domain class and `tld` at least two letters.  Any such `tld` is a letter
suffix preceded by a dot, so it must be the maximal letter suffix, which is
what this function inspects. -/
def domainReCore (s : List Char) : Bool :=
  match s.reverse.dropWhile Char.isAlpha with
  | c :: preRev =>
    c == '.' && decide (2 ≤ (s.reverse.takeWhile Char.isAlpha).length) &&
      !preRev.isEmpty && preRev.all isDomainChar
  | [] => false

/-- Truthiness of `re.match(r'^[a-zA-Z0-9.-]+\.[a-zA-Z]{2,}$', part)`
(linkfinder.py line 80), including the `$` trailing-newline acceptance
(Python also matches a segment such as `"evil.com\n"`). -/
def domainRe (s : List Char) : Bool :=
  withDollar domainReCore s

/-- The domain test of the path scan (linkfinder.py line 80):
`'.' in part and re.match(...)`. -/
def looksDomain (s : List Char) : Bool := s.contains '.' && domainRe s

/-- The `for i, part in enumerate(parts)` scan (linkfinder.py lines 78-85):
first segment that looks like a domain, together with the remaining
segments. -/
def findDomain : List (List Char) → Option (List Char × List (List Char))
  | [] => none
  | p :: rest =>
    if looksDomain p then some (p, rest) else findDomain rest

/-- Python `js_full_url.rsplit('/', 1)[0] + '/'` (linkfinder.py line 93). -/
def dirOf (full : List Char) : List Char :=
  match rfindSlash full with
  | some i => full.take (i + 1)
  | none => full ++ ['/']

/-- Python `extract_base_url_from_path(js_file_path)` (linkfinder.py lines
65-97); `none` models the `return None, None` fall-through. -/
def extract_base_url_from_path (p : List Char) : Option (List Char × List Char) :=
  let normalized := p.map (fun c => if c == '\\' then '/' else c)
  let parts := normalized.splitOn '/'
  match findDomain parts with
  | none => none
  | some (domain, rest) =>
    let relPath := List.intercalate ['/'] rest
    some ("https://".toList ++ domain ++ ['/'],
          dirOf ("https://".toList ++ domain ++ '/' :: relPath))

/-- The candidate cleaning of `write_path_rebuild_file` (linkfinder.py lines
252-261): remove every space, then strip a leading `./`, `../` or `.`
(first applicable rule only). -/
def cleanWriteCandidate (p : List Char) : List Char :=
  let q := p.filter (fun c => !(c == ' '))
  if ['.', '/'].isPrefixOf q then q.drop 2
  else if ['.', '.', '/'].isPrefixOf q then q.drop 3
  else if ['.'].isPrefixOf q then q.drop 1
  else q

/-- The per-candidate step of `write_path_rebuild_file` (linkfinder.py lines
249-263): only candidates starting with `'.'` are cleaned and rebuilt;
`none` models the skipped candidate. -/
def processCandidate (base dir p : List Char) : Option (List (List Char)) :=
  if p.head? = some '.' then some (rebuild_paths base dir (cleanWriteCandidate p))
  else none

/-- Index of the first occurrence of `a`, used to state the ordering of the
deduplicated candidate list. -/
def firstOcc (a : List Char) : List (List Char) → Nat
  | [] => 0
  | b :: l => if a = b then 0 else firstOcc a l + 1

/-! ### Lemmas about the string primitives -/

theorem rstripSlash_length_le (s : List Char) : (rstripSlash s).length ≤ s.length := by
  induction s with
  | nil => simp [rstripSlash]
  | cons c rest ih =>
    simp only [rstripSlash]
    cases h : rstripSlash rest with
    | nil =>
      cases hc : c == '/' <;> simp [hc, List.length_cons]
    | cons d r =>
      rw [h] at ih
      simpa using Nat.succ_le_succ ih

theorem endsSlash_cons (c : Char) {rest : List Char} (h : rest ≠ []) :
    endsSlash (c :: rest) = endsSlash rest := by
  cases rest with
  | nil => exact absurd rfl h
  | cons d r => rfl

theorem endsSlash_rstripSlash (s : List Char) : endsSlash (rstripSlash s) = false := by
  induction s with
  | nil => rfl
  | cons c rest ih =>
    simp only [rstripSlash]
    cases h : rstripSlash rest with
    | nil =>
      cases hc : c == '/' <;> simp [hc, endsSlash]
    | cons d r =>
      rw [h] at ih
      rw [endsSlash_cons c (by simp)]
      exact ih

theorem rstripSlash_append (s : List Char) : ∃ t, s = rstripSlash s ++ t := by
  induction s with
  | nil => exact ⟨[], rfl⟩
  | cons c rest ih =>
    obtain ⟨t, ht⟩ := ih
    simp only [rstripSlash]
    cases h : rstripSlash rest with
    | nil =>
      cases hc : c == '/'
      · exact ⟨rest, by simp⟩
      · exact ⟨c :: rest, by simp⟩
    | cons d r =>
      rw [h] at ht
      exact ⟨t, by rw [List.cons_append, ← ht]⟩

theorem rfindSlash_lt {s : List Char} {i : Nat} (h : rfindSlash s = some i) :
    i < s.length := by
  induction s generalizing i with
  | nil => simp [rfindSlash] at h
  | cons c rest ih =>
    simp only [rfindSlash] at h
    cases h' : rfindSlash rest with
    | some j =>
      simp only [h'] at h
      cases h
      exact Nat.succ_lt_succ (ih h')
    | none =>
      simp only [h'] at h
      cases hc : c == '/'
      · simp [hc] at h
      · simp [hc] at h
        simp only [List.length_cons]
        omega

theorem rfindSlash_last {s : List Char} {i : Nat} (h : rfindSlash s = some i)
    (hlen : i + 1 = s.length) : endsSlash s = true := by
  induction s generalizing i with
  | nil => simp [rfindSlash] at h
  | cons c rest ih =>
    simp only [rfindSlash] at h
    cases h' : rfindSlash rest with
    | some j =>
      simp only [h'] at h
      cases h
      have hrest : rest ≠ [] := by
        have := rfindSlash_lt h'
        intro hr
        rw [hr] at this
        simp at this
      rw [endsSlash_cons c hrest]
      refine ih h' ?_
      simp only [List.length_cons] at hlen
      omega
    | none =>
      simp only [h'] at h
      cases hc : c == '/'
      · simp [hc] at h
      · simp only [hc, if_true] at h
        cases h
        have : rest = [] := by
          have : rest.length = 0 := by
            simp only [List.length_cons] at hlen
            omega
          exact List.eq_nil_of_length_eq_zero this
        subst this
        simp [endsSlash, hc]

/-! ### Lemmas about the climb step and the rebuild loop -/

theorem nextDir_spec {base current nxt : List Char}
    (h : nextDir base current = some nxt) :
    nxt.length < current.length ∧
    (rstripSlash base).length ≤ (rstripSlash nxt).length ∧
    ∃ t, current = nxt ++ t := by
  unfold nextDir at h
  by_cases he : rstripSlash current = rstripSlash base
  · simp [he] at h
  · rw [if_neg he] at h
    cases h' : rfindSlash (rstripSlash current) with
    | none => simp [h'] at h
    | some i =>
      simp only [h'] at h
      by_cases hg : (rstripSlash ((rstripSlash current).take (i + 1))).length <
          (rstripSlash base).length
      · simp [hg] at h
      · rw [if_neg hg] at h
        cases h
        have hi : i < (rstripSlash current).length := rfindSlash_lt h'
        have hne : i + 1 ≠ (rstripSlash current).length := by
          intro hEq
          have := rfindSlash_last h' hEq
          rw [endsSlash_rstripSlash] at this
          exact Bool.false_ne_true this
        have hlt : i + 1 < (rstripSlash current).length := by omega
        have hlen := rstripSlash_length_le current
        refine ⟨?_, by omega, ?_⟩
        · rw [List.length_take]
          omega
        · obtain ⟨t, ht⟩ := rstripSlash_append current
          refine ⟨(rstripSlash current).drop (i + 1) ++ t, ?_⟩
          rw [← List.append_assoc, List.take_append_drop, ← ht]

theorem rebuildLoopF_congr (base clean : List Char) :
    ∀ f g current, current.length < f → current.length < g →
      rebuildLoopF base clean f current = rebuildLoopF base clean g current := by
  intro f
  induction f with
  | zero => intro g current hf; exact absurd hf (Nat.not_lt_zero _)
  | succ f ih =>
    intro g current hf hg
    cases g with
    | zero => exact absurd hg (Nat.not_lt_zero _)
    | succ g =>
      simp only [rebuildLoopF]
      congr 1
      cases h : nextDir base current with
      | none => rfl
      | some nxt =>
        have hlt := (nextDir_spec h).1
        exact ih g nxt (by omega) (by omega)

theorem rebuildLoopF_mem {base clean : List Char} :
    ∀ fuel current u, u ∈ rebuildLoopF base clean fuel current →
      ∃ c, u = joinURL c clean ∧ (∃ t, current = c ++ t) ∧
        ((rstripSlash base).length ≤ (rstripSlash current).length →
          (rstripSlash base).length ≤ (rstripSlash c).length) := by
  intro fuel
  induction fuel with
  | zero => intro current u hu; simp [rebuildLoopF] at hu
  | succ fuel ih =>
    intro current u hu
    simp only [rebuildLoopF, List.mem_cons] at hu
    rcases hu with rfl | hu
    · exact ⟨current, rfl, ⟨[], by simp⟩, fun h => h⟩
    · cases h : nextDir base current with
      | none =>
        rw [h] at hu
        simp at hu
      | some nxt =>
        rw [h] at hu
        obtain ⟨hlt, hge, t0, ht0⟩ := nextDir_spec h
        obtain ⟨c, hc1, ⟨t, ht⟩, hc3⟩ := ih nxt u hu
        refine ⟨c, hc1, ⟨t ++ t0, ?_⟩, fun _ => hc3 hge⟩
        rw [ht0, ht, List.append_assoc]

/-! ### Lemmas about the filtering and deduplication loop -/

theorem dedupFirst_sublist (seen l : List (List Char)) :
    List.Sublist (dedupFirst seen l) l := by
  induction l generalizing seen with
  | nil => simp [dedupFirst]
  | cons p rest ih =>
    simp only [dedupFirst]
    by_cases h : p ∈ seen
    · rw [if_pos h]
      exact (ih seen).cons p
    · rw [if_neg h]
      exact (ih (p :: seen)).cons₂ p

theorem dedupFirst_not_mem_seen {seen l : List (List Char)} {a : List Char}
    (h : a ∈ dedupFirst seen l) : a ∉ seen := by
  induction l generalizing seen with
  | nil => simp [dedupFirst] at h
  | cons p rest ih =>
    simp only [dedupFirst] at h
    by_cases hp : p ∈ seen
    · rw [if_pos hp] at h
      exact ih h
    · rw [if_neg hp] at h
      rcases List.mem_cons.mp h with rfl | h'
      · exact hp
      · exact fun ha => ih h' (List.mem_cons_of_mem _ ha)

theorem dedupFirst_nodup (seen l : List (List Char)) :
    (dedupFirst seen l).Nodup := by
  induction l generalizing seen with
  | nil => simp [dedupFirst]
  | cons p rest ih =>
    simp only [dedupFirst]
    by_cases hp : p ∈ seen
    · rw [if_pos hp]
      exact ih seen
    · rw [if_neg hp]
      refine List.nodup_cons.mpr ⟨?_, ih (p :: seen)⟩
      intro hmem
      exact dedupFirst_not_mem_seen hmem (List.mem_cons_self p seen)

theorem dedupFirst_eq_self {seen l : List (List Char)}
    (hn : l.Nodup) (hs : ∀ a ∈ l, a ∉ seen) : dedupFirst seen l = l := by
  induction l generalizing seen with
  | nil => rfl
  | cons p rest ih =>
    simp only [dedupFirst]
    rw [if_neg (hs p (List.mem_cons_self p rest))]
    congr 1
    refine ih (List.nodup_cons.mp hn).2 ?_
    intro a ha hmem
    rcases List.mem_cons.mp hmem with h | h
    · exact (List.nodup_cons.mp hn).1 (h ▸ ha)
    · exact hs a (List.mem_cons_of_mem _ ha) h

theorem firstOcc_cons_self (a : List Char) (l : List (List Char)) :
    firstOcc a (a :: l) = 0 := by
  simp [firstOcc]

theorem firstOcc_cons_ne {a b : List Char} (l : List (List Char)) (h : a ≠ b) :
    firstOcc a (b :: l) = firstOcc a l + 1 := by
  simp [firstOcc, h]

theorem dedupFirst_pair_firstOcc {a b : List Char} :
    ∀ {l seen : List (List Char)}, List.Sublist [a, b] (dedupFirst seen l) →
      firstOcc a l < firstOcc b l := by
  intro l
  induction l with
  | nil =>
    intro seen h
    simp [dedupFirst] at h
  | cons x xs ih =>
    intro seen h
    by_cases hx : x ∈ seen
    · rw [show dedupFirst seen (x :: xs) = dedupFirst seen xs from by
        simp [dedupFirst, hx]] at h
      have ha : a ∈ dedupFirst seen xs := h.subset (by simp)
      have hb : b ∈ dedupFirst seen xs := h.subset (by simp)
      have hane : a ≠ x := fun hEq => dedupFirst_not_mem_seen ha (hEq ▸ hx)
      have hbne : b ≠ x := fun hEq => dedupFirst_not_mem_seen hb (hEq ▸ hx)
      rw [firstOcc_cons_ne xs hane, firstOcc_cons_ne xs hbne]
      exact Nat.succ_lt_succ (ih h)
    · rw [show dedupFirst seen (x :: xs) = x :: dedupFirst (x :: seen) xs from by
        simp [dedupFirst, hx]] at h
      cases h with
      | cons _ h' =>
        have ha : a ∈ dedupFirst (x :: seen) xs := h'.subset (by simp)
        have hb : b ∈ dedupFirst (x :: seen) xs := h'.subset (by simp)
        have hane : a ≠ x := fun hEq =>
          dedupFirst_not_mem_seen ha (hEq ▸ List.mem_cons_self x seen)
        have hbne : b ≠ x := fun hEq =>
          dedupFirst_not_mem_seen hb (hEq ▸ List.mem_cons_self x seen)
        rw [firstOcc_cons_ne xs hane, firstOcc_cons_ne xs hbne]
        exact Nat.succ_lt_succ (ih h')
      | cons₂ _ h' =>
        have hb : b ∈ dedupFirst (a :: seen) xs := h'.subset (by simp)
        have hbne : b ≠ a := fun hEq =>
          dedupFirst_not_mem_seen hb (hEq ▸ List.mem_cons_self a seen)
        rw [firstOcc_cons_self, firstOcc_cons_ne xs hbne]
        omega

theorem firstOcc_filter_lt {p : List Char → Bool} {l : List (List Char)}
    {a b : List Char} (ha : a ∈ l.filter p) (hb : b ∈ l.filter p)
    (h : firstOcc a (l.filter p) < firstOcc b (l.filter p)) :
    firstOcc a l < firstOcc b l := by
  induction l with
  | nil => simp at ha
  | cons x xs ih =>
    by_cases hp : p x = true
    · rw [List.filter_cons, if_pos hp] at ha hb h
      by_cases hbx : b = x
      · subst hbx
        rw [firstOcc_cons_self] at h
        omega
      · by_cases hax : a = x
        · subst hax
          rw [firstOcc_cons_self, firstOcc_cons_ne xs hbx]
          omega
        · rw [firstOcc_cons_ne _ hax, firstOcc_cons_ne _ hbx] at h
          have ha' : a ∈ xs.filter p := by
            rcases List.mem_cons.mp ha with hEq | h1
            · exact absurd hEq hax
            · exact h1
          have hb' : b ∈ xs.filter p := by
            rcases List.mem_cons.mp hb with hEq | h1
            · exact absurd hEq hbx
            · exact h1
          rw [firstOcc_cons_ne xs hax, firstOcc_cons_ne xs hbx]
          exact Nat.succ_lt_succ (ih ha' hb' (by omega))
    · rw [List.filter_cons, if_neg hp] at ha hb h
      have hax : a ≠ x := fun hEq => hp (hEq ▸ List.of_mem_filter ha)
      have hbx : b ≠ x := fun hEq => hp (hEq ▸ List.of_mem_filter hb)
      rw [firstOcc_cons_ne xs hax, firstOcc_cons_ne xs hbx]
      exact Nat.succ_lt_succ (ih ha hb h)

/-! ### Lemmas about origin resolution -/

theorem rfindSlash_append_slash (l : List Char) :
    rfindSlash (l ++ ['/']) = some l.length := by
  induction l with
  | nil => rfl
  | cons c l ih =>
    simp only [List.cons_append, rfindSlash, List.append_eq]
    rw [ih]
    simp [List.length_cons]

theorem dirOf_append_slash (l : List Char) : dirOf (l ++ ['/']) = l ++ ['/'] := by
  simp only [dirOf, rfindSlash_append_slash]
  apply List.take_of_length_le
  simp

theorem domainReCore_contains_dot {s : List Char} (h : domainReCore s = true) :
    s.contains '.' = true := by
  unfold domainReCore at h
  cases hd : s.reverse.dropWhile Char.isAlpha with
  | nil =>
    rw [hd] at h
    simp at h
  | cons c pre =>
    rw [hd] at h
    simp only [Bool.and_eq_true, beq_iff_eq] at h
    obtain ⟨⟨⟨hc, _⟩, _⟩, _⟩ := h
    have hmem : c ∈ s.reverse.dropWhile Char.isAlpha := by
      rw [hd]
      exact List.mem_cons_self c pre
    have hrev : c ∈ s.reverse := by
      have h2 := List.takeWhile_append_dropWhile (p := Char.isAlpha) (l := s.reverse)
      rw [← h2]
      exact List.mem_append.mpr (Or.inr hmem)
    have hs : c ∈ s := List.mem_reverse.mp hrev
    have hs2 : ('.' : Char) ∈ s := hc ▸ hs
    simpa using hs2

theorem findDomain_last {l : List (List Char)} {x : List Char}
    (hl : ∀ s ∈ l, looksDomain s = false) (hx : looksDomain x = true) :
    findDomain (l ++ [x]) = some (x, []) := by
  induction l with
  | nil => simp [findDomain, hx]
  | cons s rest ih =>
    simp only [List.cons_append, findDomain]
    rw [hl s (List.mem_cons_self s rest)]
    simp only [Bool.false_eq_true, if_false]
    exact ih (fun a ha => hl a (List.mem_cons_of_mem _ ha))

/-! ### Lemmas about spaces in rebuilt URLs -/

theorem not_space_filter (p : List Char) :
    ' ' ∉ p.filter (fun c => !(c == ' ')) := by
  intro h
  have := List.of_mem_filter h
  simp at this

theorem not_space_cleanWriteCandidate (p : List Char) :
    ' ' ∉ cleanWriteCandidate p := by
  simp only [cleanWriteCandidate]
  split_ifs <;> intro h
  · exact not_space_filter p (List.mem_of_mem_drop h)
  · exact not_space_filter p (List.mem_of_mem_drop h)
  · exact not_space_filter p (List.mem_of_mem_drop h)
  · exact not_space_filter p h

theorem not_space_cleanRel {p : List Char} (h : ' ' ∉ p) : ' ' ∉ cleanRel p := by
  simp only [cleanRel]
  split_ifs <;> intro hm
  · exact h (List.mem_of_mem_drop hm)
  · exact h (List.mem_of_mem_drop hm)
  · exact h hm

theorem not_space_joinURL {c clean : List Char} (hc : ' ' ∉ c) (hcl : ' ' ∉ clean) :
    ' ' ∉ joinURL c clean := by
  simp only [joinURL]
  split_ifs <;> intro hm
  · rcases List.mem_append.mp hm with h | h
    · exact hc h
    · exact hcl h
  · rcases List.mem_append.mp hm with h | h
    · exact hc h
    · rcases List.mem_cons.mp h with h | h
      · exact absurd h (by decide)
      · exact hcl h

/-! ### Claim theorems -/

/-- Claim C1, counterexample to the claim as stated: the pipeline does not
strip candidate `../api/data.json` to `/api/data.json` (it strips the whole
leading `../`, giving `api/data.json`), and rebuilding the claimed cleaned
candidate `/api/data.json` from `https://example.com/app/js/` does not yield
the claimed three URLs (its first element has a doubled slash). -/
theorem rebuild_claimed_strip_false :
    cleanWriteCandidate "../api/data.json".toList ≠ "/api/data.json".toList ∧
    cleanWriteCandidate "../api/data.json".toList = "api/data.json".toList ∧
    rebuild_paths "https://example.com/".toList "https://example.com/app/js/".toList
        "/api/data.json".toList ≠
      ["https://example.com/app/js/api/data.json".toList,
       "https://example.com/app/api/data.json".toList,
       "https://example.com/api/data.json".toList] := by
  decide

/-- Claim C1, amended: for baseURL `https://example.com/` and currentDirURL
`https://example.com/app/js/`, the rebuild pipeline of
`write_path_rebuild_file` strips candidate `../api/data.json` to
`api/data.json` and rebuilds it to exactly the ordered three-element
sequence `https://example.com/app/js/api/data.json`,
`https://example.com/app/api/data.json`, `https://example.com/api/data.json`,
with the base-level join as the final element. -/
theorem rebuild_dotdot_three_urls :
    processCandidate "https://example.com/".toList "https://example.com/app/js/".toList
        "../api/data.json".toList =
      some ["https://example.com/app/js/api/data.json".toList,
            "https://example.com/app/api/data.json".toList,
            "https://example.com/api/data.json".toList] := by
  decide

/-- Claim C2: whenever the slash-trimmed currentDirURL equals the
slash-trimmed baseURL, `rebuild_paths` returns exactly one URL, the join of
the currentDirURL with the cleaned candidate using exactly one `/`
separator (the starting directory's join is emitted before the termination
check fires). -/
theorem rebuild_paths_single (base dir rel : List Char)
    (h : rstripSlash dir = rstripSlash base) :
    rebuild_paths base dir rel = [joinURL dir (cleanRel rel)] := by
  simp [rebuild_paths, rebuildLoopF, nextDir, h]

/-- Witness for C2, the spec's §8 scenario: base and current directory both
`https://site.example/`, candidate cleaned to `config/settings.json`. -/
theorem rebuild_paths_single_witness :
    rebuild_paths "https://site.example/".toList "https://site.example/".toList
        "config/settings.json".toList =
      [joinURL "https://site.example/".toList
        (cleanRel "config/settings.json".toList)] ∧
    joinURL "https://site.example/".toList (cleanRel "config/settings.json".toList) =
      "https://site.example/config/settings.json".toList :=
  ⟨rebuild_paths_single _ _ _ rfl, by decide⟩

/-- Claim C3: when the slash-trimmed currentDirURL is at least as long as the
slash-trimmed baseURL, every element of the rebuild output is the join of
the cleaned candidate with a directory URL whose slash-trimmed length is at
least the baseURL's slash-trimmed length (the climb never descends past the
site root). -/
theorem rebuild_paths_above_base (base dir rel : List Char)
    (h : (rstripSlash base).length ≤ (rstripSlash dir).length) :
    ∀ u ∈ rebuild_paths base dir rel,
      ∃ c, u = joinURL c (cleanRel rel) ∧
        (rstripSlash base).length ≤ (rstripSlash c).length := by
  intro u hu
  have hu' : u ∈ rebuildLoopF base (cleanRel rel) (dir.length + 1) dir := hu
  obtain ⟨c, h1, _, h3⟩ := rebuildLoopF_mem _ _ _ hu'
  exact ⟨c, h1, h3 h⟩

/-- Witness for C3 at a concrete origin and candidate. -/
theorem rebuild_paths_above_base_witness :
    ∃ c, "https://example.com/app/js/x".toList = joinURL c (cleanRel "x".toList) ∧
      (rstripSlash "https://example.com/".toList).length ≤ (rstripSlash c).length :=
  rebuild_paths_above_base "https://example.com/".toList
    "https://example.com/app/js/".toList "x".toList (by decide)
    "https://example.com/app/js/x".toList (by decide)

/-- Claim C4: for every triple of input strings the climbing loop of
`rebuild_paths` terminates after finitely many iterations — any fuel larger
than the currentDirURL's length reproduces `rebuild_paths`, so the Python
`while True` loop ends within `|currentDirURL| + 1` iterations — and the
result sequence is non-empty. -/
theorem rebuild_paths_terminates (base dir rel : List Char) :
    (∀ fuel, dir.length < fuel →
      rebuildLoopF base (cleanRel rel) fuel dir = rebuild_paths base dir rel) ∧
    rebuild_paths base dir rel ≠ [] := by
  constructor
  · intro fuel hf
    exact rebuildLoopF_congr base (cleanRel rel) fuel (dir.length + 1) dir hf (by omega)
  · simp [rebuild_paths, rebuildLoopF]

/-- Witness for C4 at a concrete origin, candidate and oversized fuel. -/
theorem rebuild_paths_terminates_witness :
    rebuildLoopF "https://example.com/".toList (cleanRel "x.js".toList)
        ("https://example.com/app/".toList.length + 5)
        "https://example.com/app/".toList =
      rebuild_paths "https://example.com/".toList "https://example.com/app/".toList
        "x.js".toList ∧
    rebuild_paths "https://example.com/".toList "https://example.com/app/".toList
        "x.js".toList ≠ [] :=
  ⟨(rebuild_paths_terminates _ _ _).1 _ (by decide),
   (rebuild_paths_terminates _ _ _).2⟩

/-- Claim C5: for every ordered list of raw grammar matches, the filtered and
deduplicated candidate list has no two equal elements, its length is at most
the number of raw matches, it is a sublist of the raw match list, and any
two of its elements appear in the order of their first occurrences in the
raw match list. -/
theorem filter_matches_props (ms : List (List Char)) :
    (filter_matches ms).Nodup ∧
    (filter_matches ms).length ≤ ms.length ∧
    List.Sublist (filter_matches ms) ms ∧
    ∀ a b, List.Sublist [a, b] (filter_matches ms) →
      firstOcc a ms < firstOcc b ms := by
  have hsub : List.Sublist (filter_matches ms) ms :=
    (dedupFirst_sublist [] (ms.filter keepPath)).trans (List.filter_sublist ms)
  refine ⟨dedupFirst_nodup [] _, hsub.length_le, hsub, ?_⟩
  intro a b hab
  have h1 : firstOcc a (ms.filter keepPath) < firstOcc b (ms.filter keepPath) :=
    dedupFirst_pair_firstOcc hab
  have ha : a ∈ ms.filter keepPath :=
    (dedupFirst_sublist [] (ms.filter keepPath)).subset (hab.subset (by simp))
  have hb : b ∈ ms.filter keepPath :=
    (dedupFirst_sublist [] (ms.filter keepPath)).subset (hab.subset (by simp))
  exact firstOcc_filter_lt ha hb h1

/-- Witness for C5: a match list with a rejected token and a duplicate. -/
theorem filter_matches_props_witness :
    firstOcc "/a/b".toList
        ["/a/b".toList, "12".toList, "/a/b".toList, "x.js".toList] <
      firstOcc "x.js".toList
        ["/a/b".toList, "12".toList, "/a/b".toList, "x.js".toList] := by
  have h := (filter_matches_props
    ["/a/b".toList, "12".toList, "/a/b".toList, "x.js".toList]).2.2.2
  exact h "/a/b".toList "x.js".toList (by decide)

/-- Claim C6: the candidate filter is idempotent — applying the rejection
rules followed by first-occurrence deduplication to one of its own outputs
returns that output unchanged. -/
theorem filter_matches_idem (ms : List (List Char)) :
    filter_matches (filter_matches ms) = filter_matches ms := by
  have hkeep : ∀ a ∈ filter_matches ms, keepPath a = true := by
    intro a ha
    exact List.of_mem_filter ((dedupFirst_sublist [] (ms.filter keepPath)).subset ha)
  have h1 : (filter_matches ms).filter keepPath = filter_matches ms :=
    List.filter_eq_self.mpr hkeep
  show dedupFirst [] ((filter_matches ms).filter keepPath) = filter_matches ms
  rw [h1]
  exact dedupFirst_eq_self (dedupFirst_nodup [] _) (by intro a _; simp)

/-- Claim C7: origin resolution of the file path
`results/js_files/example.com/app/main.js` yields baseURL
`https://example.com/` and currentDirURL `https://example.com/app/`. -/
theorem origin_example_path :
    extract_base_url_from_path "results/js_files/example.com/app/main.js".toList =
      some ("https://example.com/".toList, "https://example.com/app/".toList) := by
  decide

/-- Claim C8: if compiling the grammar pattern fails, `extract_paths` fails
immediately with that error (no candidate list is produced, the failure is
not swallowed); if the pattern compiles, `extract_paths` returns the
filtered match list without raising. -/
theorem extract_paths_compile_surface {ε π : Type}
    (compileRe : List Char → Except ε π)
    (findAll : π → List Char → List (List Char))
    (beautifyF : List Char → Option (List Char))
    (customRe : Option (List Char)) (content : List Char) :
    (∀ e, compileRe (chosenPattern customRe) = Except.error e →
      extract_paths compileRe findAll beautifyF customRe content =
        Except.error e) ∧
    (∀ r, compileRe (chosenPattern customRe) = Except.ok r →
      extract_paths compileRe findAll beautifyF customRe content =
        Except.ok (filter_matches (findAll r
          (if 1000000 < content.length then content.flatMap insertNl
           else (beautifyF content).getD content)))) := by
  constructor
  · intro e he
    simp [extract_paths, he]
  · intro r hr
    simp [extract_paths, hr]

/-- Witness for C8: a compiler that rejects the custom pattern `(`. -/
theorem extract_paths_compile_surface_witness :
    extract_paths (fun s => if s.length = 1 then Except.error 7 else Except.ok 0)
        (fun _ _ => ([] : List (List Char))) (fun _ => none) (some ['('])
        ([] : List Char) =
      Except.error 7 :=
  (extract_paths_compile_surface _ _ _ _ _).1 7 rfl

/-- Claim C9: when no earlier path segment passes the program's domain test
(`'.' in part and re.match(...)`, with Python's `$` trailing-newline
acceptance) but the final segment fully matches
`[a-zA-Z0-9.-]+\.[a-zA-Z]{2,}` end-to-end, origin resolution does not fail:
it takes the filename itself as the domain and returns `https://<filename>/`
as baseURL with currentDirURL equal to it. -/
theorem origin_filename_fallback (p : List Char) (dirs : List (List Char))
    (fname : List Char)
    (hsplit : (p.map (fun c => if c == '\\' then '/' else c)).splitOn '/' =
      dirs ++ [fname])
    (hdirs : ∀ s ∈ dirs, looksDomain s = false)
    (hf : domainReCore fname = true) :
    extract_base_url_from_path p =
      some ("https://".toList ++ fname ++ ['/'],
            "https://".toList ++ fname ++ ['/']) := by
  have hlooks : looksDomain fname = true := by
    have hdot := domainReCore_contains_dot hf
    have hdot' : ('.' : Char) ∈ fname := by simpa using hdot
    simp [looksDomain, domainRe, withDollar, hdot', hf]
  have hd : dirOf ("https://".toList ++ fname ++ ['/']) =
      "https://".toList ++ fname ++ ['/'] :=
    dirOf_append_slash ("https://".toList ++ fname)
  simp only [extract_base_url_from_path]
  rw [hsplit, findDomain_last hdirs hlooks]
  show some ("https://".toList ++ fname ++ ['/'],
      dirOf ("https://".toList ++ fname ++
        '/' :: List.intercalate ['/'] ([] : List (List Char)))) =
    some ("https://".toList ++ fname ++ ['/'],
      "https://".toList ++ fname ++ ['/'])
  have hi : ('/' : Char) :: List.intercalate ['/'] ([] : List (List Char)) = ['/'] := rfl
  rw [hi, hd]

/-- Witness for C9: the path `out/bundle.js`, whose only domain-shaped
segment is the filename. -/
theorem origin_filename_fallback_witness :
    extract_base_url_from_path "out/bundle.js".toList =
      some ("https://".toList ++ "bundle.js".toList ++ ['/'],
            "https://".toList ++ "bundle.js".toList ++ ['/']) :=
  origin_filename_fallback "out/bundle.js".toList ["out".toList]
    "bundle.js".toList (by decide) (by decide) (by decide)

/-- Claim C10: for a dot-prefixed candidate, the per-candidate rebuild step
of `write_path_rebuild_file` gives the same result as for the candidate
with all spaces deleted (spaces are removed before the prefix stripping),
and when the directory URL itself is space-free no emitted rebuilt URL
contains a space. -/
theorem processCandidate_spaces (base dir p : List Char)
    (hdot : p.head? = some '.') :
    processCandidate base dir p =
      processCandidate base dir (p.filter (fun c => !(c == ' '))) ∧
    (' ' ∉ dir → ∀ urls, processCandidate base dir p = some urls →
      ∀ u ∈ urls, ' ' ∉ u) := by
  obtain ⟨p', rfl⟩ : ∃ p', p = '.' :: p' := by
    cases p with
    | nil => simp at hdot
    | cons c q =>
      simp only [List.head?_cons, Option.some.injEq] at hdot
      exact ⟨q, by rw [hdot]⟩
  have hff : ∀ l : List Char,
      (l.filter (fun c => !(c == ' '))).filter (fun c => !(c == ' ')) =
        l.filter (fun c => !(c == ' ')) := by
    intro l
    rw [List.filter_filter]
    congr 1
    funext a
    exact Bool.and_self _
  have hfil : ('.' :: p').filter (fun c => !(c == ' ')) =
      '.' :: p'.filter (fun c => !(c == ' ')) := by
    simp [List.filter_cons]
  have hcw : cleanWriteCandidate ('.' :: p'.filter (fun c => !(c == ' '))) =
      cleanWriteCandidate ('.' :: p') := by
    have h0 : ('.' :: p'.filter (fun c => !(c == ' '))).filter
        (fun c => !(c == ' ')) = ('.' :: p').filter (fun c => !(c == ' ')) := by
      simp [List.filter_cons, hff]
    simp only [cleanWriteCandidate, h0]
  constructor
  · simp [processCandidate, hfil, hcw]
  · intro hdir urls heq u hu
    have heq' : some (rebuild_paths base dir (cleanWriteCandidate ('.' :: p'))) =
        some urls := by
      rw [← heq]
      simp [processCandidate]
    have hurls : urls = rebuild_paths base dir (cleanWriteCandidate ('.' :: p')) := by
      injection heq' with h2
      exact h2.symm
    subst hurls
    have hmem : u ∈ rebuildLoopF base (cleanRel (cleanWriteCandidate ('.' :: p')))
        (dir.length + 1) dir := hu
    obtain ⟨c, h1, ⟨t, ht⟩, _⟩ := rebuildLoopF_mem _ _ _ hmem
    have hcsp : ' ' ∉ c := by
      intro hsp
      apply hdir
      rw [ht]
      exact List.mem_append.mpr (Or.inl hsp)
    have hclsp : ' ' ∉ cleanRel (cleanWriteCandidate ('.' :: p')) :=
      not_space_cleanRel (not_space_cleanWriteCandidate _)
    rw [h1]
    exact not_space_joinURL hcsp hclsp

/-- Witness for C10 at a concrete origin and a candidate containing a
space. -/
theorem processCandidate_spaces_witness :
    processCandidate "https://e.x/".toList "https://e.x/a/".toList
        "./b c.js".toList =
      processCandidate "https://e.x/".toList "https://e.x/a/".toList
        ("./b c.js".toList.filter (fun c => !(c == ' '))) ∧
    ' ' ∉ "https://e.x/a/bc.js".toList := by
  have h := processCandidate_spaces "https://e.x/".toList "https://e.x/a/".toList
    "./b c.js".toList (by decide)
  exact ⟨h.1, h.2 (by decide)
    ["https://e.x/a/bc.js".toList, "https://e.x/bc.js".toList] (by decide)
    "https://e.x/a/bc.js".toList (by decide)⟩

end LinkFinder
